import Mathlib

/-!
Verification development for the `german_trainer` repository (`src/app.py`).

The Python source is shallowly embedded as Lean definitions:
* a pandas `DataFrame` row becomes the structure `VocabItem`; a deck is a `List VocabItem`
  indexed by position,
* Python floats are modelled as exact rationals (`0.2` becomes `1/5`),
* `random.choices(population, weights, k=1)` is modelled by a pure function of one rational
  draw `r` with `0 ≤ r < total` (the value `random() * total` used by the library): the
  returned index is the first one whose cumulative weight exceeds `r`; the library's
  `ValueError` on a non-positive weight total is modelled by an `Option`,
* case folding (`re.IGNORECASE`, `str.lower`) is modelled on the ASCII letters.

Definition names follow the Python function names where Lean allows it.
-/

namespace GermanTrainer

/-- One row of a deck, after `load_data` normalised every cell to a string.
Field order follows the CSV schema in `create_new_module_file`. -/
structure VocabItem where
  deutsch : String
  farsi : String
  english : String
  beispielsatz : String
  beispielsatzFarsi : String
  status : String
  praeposition : String
  artikel : String
  plural : String
deriving DecidableEq

/-! ## Selection Engine (`get_weighted_random_index`, src/app.py lines 65-72) -/

/-- Weight of one status value, from the list comprehension
`[10 if s == 'Red' else 0.2 if s == 'Green' else 2 for s in df['Status']]`. -/
def statusWeight (s : String) : ℚ :=
  if s = "Red" then 10 else if s = "Green" then 1/5 else 2

/-- The weight list built by `get_weighted_random_index` from the deck's Status column. -/
def weightsOf (df : List VocabItem) : List ℚ :=
  df.map (fun r => statusWeight r.status)

/-- Core of `random.choices`: walk the weight list, returning the first index whose
cumulative weight strictly exceeds the draw `r`. -/
def pickFrom : List ℚ → ℚ → Nat
  | [], _ => 0
  | w :: ws, r => if r < w then 0 else pickFrom ws (r - w) + 1

/-- `random.choices(df.index, weights=ws, k=1)[0]` for one draw `r` in `[0, total)`.
The library raises `ValueError` when the weight total is not positive; that failure is
modelled as `none` (the `except` branch of the Python code turns it into index 0). -/
def random_choices (ws : List ℚ) (r : ℚ) : Option Nat :=
  if ws.sum ≤ 0 then none else some (pickFrom ws r)

/-- `get_weighted_random_index(df)` for one random draw `r`. -/
def get_weighted_random_index (df : List VocabItem) (r : ℚ) : Nat :=
  if df = [] then 0 else (random_choices (weightsOf df) r).getD 0

/-- Weight mapping as worded by the specification's claim: weight 10 if the status is
`Red`, 0.2 if it is `Green`, and 2 otherwise. -/
def claimWeight (s : String) : ℚ :=
  if s = "Red" then 10 else if s = "Green" then 1/5 else 2

theorem statusWeight_ge (s : String) : (1:ℚ)/5 ≤ statusWeight s := by
  unfold statusWeight
  split_ifs <;> norm_num

theorem statusWeight_pos (s : String) : (0:ℚ) < statusWeight s :=
  lt_of_lt_of_le (by norm_num) (statusWeight_ge s)

theorem weightsOf_pos (df : List VocabItem) : ∀ w ∈ weightsOf df, (0:ℚ) < w := by
  intro w hw
  simp only [weightsOf, List.mem_map] at hw
  obtain ⟨r, _, rfl⟩ := hw
  exact statusWeight_pos r.status

theorem weightsOf_length (df : List VocabItem) : (weightsOf df).length = df.length :=
  List.length_map df _

theorem take_sum_nonneg (ws : List ℚ) (h : ∀ w ∈ ws, (0:ℚ) < w) (k : Nat) :
    0 ≤ (ws.take k).sum :=
  List.sum_nonneg (fun w hw => le_of_lt (h w (List.take_subset k ws hw)))

/-- Interval characterisation of the sampler: with positive weights and a draw inside
`[0, total)`, index `i` is returned exactly when `r` falls in the half-open interval
between the `i`-th and `(i+1)`-th cumulative weights.  The interval has width `ws[i]`,
so the draw is weighted sampling with exactly the given weights. -/
theorem pickFrom_spec (ws : List ℚ) : ∀ (r : ℚ) (i : Nat),
    (∀ w ∈ ws, (0:ℚ) < w) → 0 ≤ r → r < ws.sum →
    (pickFrom ws r = i ↔ (ws.take i).sum ≤ r ∧ r < (ws.take (i+1)).sum) := by
  induction ws with
  | nil =>
    intro r i _ h0 h1
    simp only [List.sum_nil] at h1
    linarith
  | cons w ws ih =>
    intro r i hpos h0 h1
    have hpos' : ∀ x ∈ ws, (0:ℚ) < x := fun x hx => hpos x (List.mem_cons_of_mem w hx)
    by_cases hr : r < w
    · cases i with
      | zero =>
        rw [List.take_zero, List.sum_nil, List.take_succ_cons, List.take_zero,
          List.sum_cons, List.sum_nil, add_zero]
        constructor
        · intro _; exact ⟨h0, hr⟩
        · intro _; simp [pickFrom, hr]
      | succ j =>
        have htk : 0 ≤ (ws.take j).sum := take_sum_nonneg ws hpos' j
        constructor
        · intro h
          exfalso
          have h0eq : pickFrom (w :: ws) r = 0 := by simp [pickFrom, hr]
          omega
        · rintro ⟨hle, -⟩
          exfalso
          rw [List.take_succ_cons, List.sum_cons] at hle
          linarith
    · have hpick : pickFrom (w :: ws) r = pickFrom ws (r - w) + 1 := by simp [pickFrom, hr]
      cases i with
      | zero =>
        constructor
        · intro h
          exfalso
          omega
        · rintro ⟨-, hlt⟩
          exfalso
          rw [List.take_succ_cons, List.take_zero, List.sum_cons, List.sum_nil,
            add_zero] at hlt
          exact hr hlt
      | succ j =>
        have hw : w ≤ r := le_of_not_lt hr
        have h0' : 0 ≤ r - w := by linarith
        have h1' : r - w < ws.sum := by
          simp only [List.sum_cons] at h1; linarith
        have hiff := ih (r - w) j hpos' h0' h1'
        rw [hpick]
        simp only [List.take_succ_cons, List.sum_cons]
        constructor
        · intro h
          have hj : pickFrom ws (r - w) = j := by omega
          obtain ⟨ha, hb⟩ := hiff.mp hj
          exact ⟨by linarith, by linarith⟩
        · rintro ⟨ha, hb⟩
          have hj : pickFrom ws (r - w) = j := hiff.mpr ⟨by linarith, by linarith⟩
          omega

theorem pickFrom_lt_length (ws : List ℚ) : ∀ r : ℚ,
    (∀ w ∈ ws, (0:ℚ) < w) → 0 ≤ r → r < ws.sum → pickFrom ws r < ws.length := by
  induction ws with
  | nil =>
    intro r _ h0 h1
    simp only [List.sum_nil] at h1
    linarith
  | cons w ws ih =>
    intro r hpos h0 h1
    by_cases hr : r < w
    · simp [pickFrom, hr]
    · have hpos' : ∀ x ∈ ws, (0:ℚ) < x := fun x hx => hpos x (List.mem_cons_of_mem w hx)
      have hw : w ≤ r := le_of_not_lt hr
      have h1' : r - w < ws.sum := by
        simp only [List.sum_cons] at h1; linarith
      have := ih (r - w) hpos' (by linarith) h1'
      simp only [pickFrom, hr, if_neg, not_false_iff, List.length_cons]
      omega

/-- C1: every item's selection weight is determined solely by its status — 10 for `Red`,
0.2 for `Green`, 2 otherwise — and for a draw `r` in `[0, total)` the engine returns
index `i` exactly when `r` lies in the cumulative-weight interval of item `i`, i.e. the
draw is weighted random sampling with replacement over the deck's indices with exactly
these weights (each call consumes an independent draw `r`). -/
theorem c1_selection_weights (df : List VocabItem) (r : ℚ) (i : Nat)
    (h0 : 0 ≤ r) (h1 : r < (weightsOf df).sum) :
    weightsOf df = df.map (fun v => claimWeight v.status) ∧
    (get_weighted_random_index df r = i ↔
      ((weightsOf df).take i).sum ≤ r ∧ r < ((weightsOf df).take (i+1)).sum) := by
  constructor
  · rfl
  · have hne : df ≠ [] := by
      intro h
      subst h
      simp only [weightsOf, List.map_nil, List.sum_nil] at h1
      linarith
    have hsum : 0 < (weightsOf df).sum := lt_of_le_of_lt h0 h1
    unfold get_weighted_random_index random_choices
    rw [if_neg hne, if_neg (not_le.mpr hsum)]
    simp only [Option.getD_some]
    exact pickFrom_spec (weightsOf df) r i (weightsOf_pos df) h0 h1

def redItem : VocabItem := ⟨"", "", "", "", "", "Red", "", "", ""⟩

def greenItem : VocabItem := ⟨"", "", "", "", "", "Green", "", "", ""⟩

theorem c1_selection_weights_witness :
    0 ≤ (0:ℚ) ∧ (0:ℚ) < (weightsOf [redItem]).sum ∧
    (weightsOf [redItem] = [redItem].map (fun v => claimWeight v.status) ∧
    (get_weighted_random_index [redItem] 0 = 0 ↔
      ((weightsOf [redItem]).take 0).sum ≤ 0 ∧
        (0:ℚ) < ((weightsOf [redItem]).take 1).sum)) :=
  ⟨le_refl 0, by norm_num [weightsOf, statusWeight, redItem],
    c1_selection_weights [redItem] 0 0 (le_refl 0)
      (by norm_num [weightsOf, statusWeight, redItem])⟩

/-- C8: on an empty deck the engine returns index 0 deterministically, and whenever the
weighted draw itself fails (`random.choices` raising, modelled by `none`), the engine
falls back to index 0. -/
theorem c8_empty_and_fallback (df : List VocabItem) (r : ℚ) :
    get_weighted_random_index [] r = 0 ∧
    (random_choices (weightsOf df) r = none → get_weighted_random_index df r = 0) := by
  constructor
  · rfl
  · intro hfail
    unfold get_weighted_random_index
    by_cases hdf : df = []
    · rw [if_pos hdf]
    · rw [if_neg hdf, hfail]
      rfl

theorem c8_empty_and_fallback_witness :
    random_choices (weightsOf []) 0 = none ∧
    (get_weighted_random_index [] 0 = 0 ∧ get_weighted_random_index [] 0 = 0) :=
  ⟨by decide, (c8_empty_and_fallback [] 0).1,
    (c8_empty_and_fallback [] 0).2 (by decide)⟩

/-- C10: on a non-empty deck every weight is at least 0.2, hence strictly positive, the
weighted draw cannot fail (the fallback branch is unreachable), and the returned index is
a member of the deck's index set. -/
theorem c10_nonempty_in_range (df : List VocabItem) (r : ℚ)
    (hne : df ≠ []) (h0 : 0 ≤ r) (h1 : r < (weightsOf df).sum) :
    (∀ w ∈ weightsOf df, (1:ℚ)/5 ≤ w) ∧
    random_choices (weightsOf df) r ≠ none ∧
    get_weighted_random_index df r < df.length := by
  have hsum : 0 < (weightsOf df).sum := lt_of_le_of_lt h0 h1
  refine ⟨?_, ?_, ?_⟩
  · intro w hw
    simp only [weightsOf, List.mem_map] at hw
    obtain ⟨v, _, rfl⟩ := hw
    exact statusWeight_ge v.status
  · unfold random_choices
    rw [if_neg (not_le.mpr hsum)]
    exact Option.some_ne_none _
  · unfold get_weighted_random_index random_choices
    rw [if_neg hne, if_neg (not_le.mpr hsum)]
    simp only [Option.getD_some]
    have := pickFrom_lt_length (weightsOf df) r (weightsOf_pos df) h0 h1
    rwa [weightsOf_length] at this

theorem c10_nonempty_in_range_witness :
    ([greenItem] : List VocabItem) ≠ [] ∧
    0 ≤ (0:ℚ) ∧ (0:ℚ) < (weightsOf [greenItem]).sum ∧
    ((∀ w ∈ weightsOf [greenItem], (1:ℚ)/5 ≤ w) ∧
      random_choices (weightsOf [greenItem]) 0 ≠ none ∧
      get_weighted_random_index [greenItem] 0 < ([greenItem] : List VocabItem).length) :=
  ⟨by simp, le_refl 0, by simp [weightsOf, statusWeight, greenItem],
    c10_nonempty_in_range [greenItem] 0 (by simp) (le_refl 0)
      (by simp [weightsOf, statusWeight, greenItem])⟩

/-! ## Masking Engine (`hide_term_in_sentence`, src/app.py lines 74-77) -/

/-- ASCII model of the case folding done by `re.IGNORECASE` / `str.lower`: the code point
of a character, with the upper-case ASCII letters mapped to their lower-case code points. -/
def lowerCode (c : Char) : Nat :=
  if 65 ≤ c.toNat ∧ c.toNat ≤ 90 then c.toNat + 32 else c.toNat

/-- Matching step of the compiled pattern `re.compile(re.escape(term), re.IGNORECASE)`:
does the literal term `t` match case-insensitively at the front of `s`?  `re.escape`
makes the term literal, so matching is plain character-by-character comparison. -/
def ciMatch : List Char → List Char → Bool
  | [], _ => true
  | _ :: _, [] => false
  | c :: t, d :: s => decide (lowerCode d = lowerCode c) && ciMatch t s

/-- The fixed replacement token, three underscores. -/
def placeholder : List Char := ['_', '_', '_']

/-- `pattern.sub("___", sentence)`: scan left to right; where the pattern matches, emit
the placeholder and continue after the matched characters (occurrences are consumed, so
replacements are non-overlapping), otherwise keep the character.  The fuel argument
(always instantiated with the sentence length) only makes the recursion structural; one
or more characters are consumed per step, so it is never exhausted. -/
def subCI (t : List Char) : Nat → List Char → List Char
  | _, [] => []
  | 0, s => s
  | fuel + 1, c :: rest =>
    if ciMatch t (c :: rest) then placeholder ++ subCI t fuel ((c :: rest).drop t.length)
    else c :: subCI t fuel rest

/-- `hide_term_in_sentence(sentence, term)` (lines 74-77): `if not sentence or not term:
return sentence`, else substitute every occurrence. -/
def hide_term_in_sentence (sentence term : List Char) : List Char :=
  if sentence = [] ∨ term = [] then sentence
  else subCI term sentence.length sentence

/-- Number of start positions at which the term `t` has a case-insensitive occurrence
inside `s`. -/
def countOcc (t : List Char) : List Char → Nat
  | [] => 0
  | c :: rest => (if ciMatch t (c :: rest) then 1 else 0) + countOcc t rest

/-- Spec-modelled (§4.5): a case-insensitive copy of the literal term `t` stands at the
front of `u`. -/
def CIHeadMatch (t u : List Char) : Prop :=
  ∃ m v, u = m ++ v ∧ m.map lowerCode = t.map lowerCode

/-- Spec-modelled (§4.5): `MaskRel t s r` holds exactly when `r` is obtained from `s` by
replacing every non-overlapping case-insensitive occurrence of the literal term `t`,
scanning left to right, with the placeholder: characters are kept only where no occurrence
starts, and where one starts the matched characters are replaced by the placeholder. -/
inductive MaskRel (t : List Char) : List Char → List Char → Prop
  | empty : MaskRel t [] []
  | keep (c : Char) (s r : List Char) : ¬ CIHeadMatch t (c :: s) → MaskRel t s r →
      MaskRel t (c :: s) (c :: r)
  | replace (m s r : List Char) : m ≠ [] → m.map lowerCode = t.map lowerCode →
      MaskRel t s r → MaskRel t (m ++ s) (placeholder ++ r)

theorem lowerCode_underscore {c : Char} (h : lowerCode c = 95) : c = '_' := by
  unfold lowerCode at h
  split_ifs at h with hr
  · exfalso
    omega
  · have : Char.ofNat c.toNat = Char.ofNat 95 := by rw [h]
    rwa [Char.ofNat_toNat] at this

theorem ciMatch_length : ∀ (t u : List Char), ciMatch t u = true → t.length ≤ u.length
  | [], _, _ => Nat.zero_le _
  | _ :: _, [], h => by simp [ciMatch] at h
  | c :: t, d :: u, h => by
    simp only [ciMatch, Bool.and_eq_true] at h
    simpa [Nat.succ_le_succ_iff] using ciMatch_length t u h.2

theorem ciMatch_append_long : ∀ (t a b : List Char), t.length ≤ a.length →
    ciMatch t (a ++ b) = ciMatch t a
  | [], _, _, _ => rfl
  | c :: t, [], _, h => by simp at h
  | c :: t, d :: a, b, h => by
    simp only [List.cons_append, ciMatch, List.append_eq]
    rw [ciMatch_append_long t a b (by simpa [Nat.succ_le_succ_iff] using h)]

theorem ciMatch_append_drop : ∀ (a t b : List Char), ciMatch t (a ++ b) = true →
    a.length ≤ t.length → ciMatch (t.drop a.length) b = true
  | [], t, b, h, _ => h
  | d :: a, [], b, _, hl => by simp at hl
  | d :: a, c :: t, b, h, hl => by
    simp only [List.cons_append, ciMatch, Bool.and_eq_true] at h
    simpa using ciMatch_append_drop a t b h.2 (by simpa [Nat.succ_le_succ_iff] using hl)

theorem ciMatch_underscore_head {t : List Char} (hne : t ≠ []) (hu : '_' ∉ t)
    (v : List Char) : ciMatch t ('_' :: v) = false := by
  cases t with
  | nil => exact absurd rfl hne
  | cons c t =>
    simp only [ciMatch, Bool.and_eq_false_iff]
    left
    simp only [decide_eq_false_iff_not]
    intro h
    have hc95 : lowerCode c = 95 := by
      have : lowerCode '_' = 95 := by decide
      omega
    exact hu (by simp [lowerCode_underscore hc95])

theorem ciMatch_mem_underscore : ∀ (t u : List Char), ciMatch t u = true → '_' ∈ t →
    '_' ∈ u
  | [], _, _, hm => by simp at hm
  | c :: t, [], h, _ => by simp [ciMatch] at h
  | c :: t, d :: u, h, hm => by
    simp only [ciMatch, Bool.and_eq_true, decide_eq_true_eq] at h
    rcases List.mem_cons.mp hm with hc | ht
    · subst hc
      have hd : lowerCode d = 95 := by
        have h95 : lowerCode '_' = 95 := by decide
        omega
      rw [lowerCode_underscore hd]
      exact List.mem_cons_self _ _
    · exact List.mem_cons_of_mem d (ciMatch_mem_underscore t u h.2 ht)

theorem countOcc_tail_le (t : List Char) (c : Char) (rest : List Char) :
    countOcc t rest ≤ countOcc t (c :: rest) := by
  simp only [countOcc]
  omega

theorem countOcc_drop_le (t : List Char) : ∀ (n : Nat) (u : List Char),
    countOcc t (u.drop n) ≤ countOcc t u := by
  intro n
  induction n with
  | zero => intro u; simp
  | succ m ih =>
    intro u
    cases u with
    | nil => simp
    | cons c rest =>
      calc countOcc t ((c :: rest).drop (m+1)) = countOcc t (rest.drop m) := by
            simp
        _ ≤ countOcc t rest := ih rest
        _ ≤ countOcc t (c :: rest) := countOcc_tail_le t c rest

theorem subCI_of_countOcc_zero (t : List Char) : ∀ (fuel : Nat) (s : List Char),
    s.length ≤ fuel → countOcc t s = 0 → subCI t fuel s = s := by
  intro fuel
  induction fuel with
  | zero =>
    intro s hl _
    have hs : s = [] := List.length_eq_zero.mp (Nat.le_zero.mp hl)
    subst hs
    rfl
  | succ f ih =>
    intro s hl h0
    cases s with
    | nil => rfl
    | cons c rest =>
      have hmf : ciMatch t (c :: rest) = false := by
        simp only [countOcc] at h0
        by_contra hmt
        rw [Bool.not_eq_false] at hmt
        rw [if_pos hmt] at h0
        omega
      have h0' : countOcc t rest = 0 := by
        simp only [countOcc, hmf, if_false] at h0
        omega
      have hrl : rest.length ≤ f := by
        simp only [List.length_cons] at hl
        omega
      simp only [subCI, hmf, Bool.false_eq_true, if_false]
      rw [ih rest hrl h0']

theorem ciMatch_take : ∀ (t u : List Char), ciMatch t u = true →
    (u.take t.length).map lowerCode = t.map lowerCode
  | [], _, _ => rfl
  | c :: t, [], h => by simp [ciMatch] at h
  | c :: t, d :: u, h => by
    simp only [ciMatch, Bool.and_eq_true, decide_eq_true_eq] at h
    simp only [List.length_cons, List.take_succ_cons, List.map_cons, h.1]
    rw [ciMatch_take t u h.2]

theorem ciMatch_of_lower_eq : ∀ (t m v : List Char),
    m.map lowerCode = t.map lowerCode → ciMatch t (m ++ v) = true
  | [], m, v, _ => rfl
  | c :: t, [], v, h => by simp at h
  | c :: t, d :: m, v, h => by
    simp only [List.map_cons, List.cons.injEq] at h
    simp only [List.cons_append, ciMatch, Bool.and_eq_true, decide_eq_true_eq]
    exact ⟨h.1, ciMatch_of_lower_eq t m v h.2⟩

theorem ciHeadMatch_iff (t u : List Char) : CIHeadMatch t u ↔ ciMatch t u = true := by
  constructor
  · rintro ⟨m, v, rfl, hmap⟩
    exact ciMatch_of_lower_eq t m v hmap
  · intro h
    exact ⟨u.take t.length, u.drop t.length, (List.take_append_drop _ _).symm,
      ciMatch_take t u h⟩

/-- Structure of one substitution pass when the term occurs exactly once: the result is
the prefix before the unique occurrence, then the placeholder, then the untouched
remainder, and neither side part contains an occurrence. -/
theorem subCI_decomp (t : List Char) (ht : t ≠ []) : ∀ (fuel : Nat) (s : List Char),
    s.length ≤ fuel → countOcc t s = 1 →
    ∃ pre rest2, s = pre ++ rest2 ∧ ciMatch t rest2 = true ∧
      subCI t fuel s = pre ++ placeholder ++ rest2.drop t.length ∧
      countOcc t pre = 0 ∧ countOcc t (rest2.drop t.length) = 0 := by
  intro fuel
  induction fuel with
  | zero =>
    intro s hl h1
    have hs : s = [] := List.length_eq_zero.mp (Nat.le_zero.mp hl)
    subst hs
    simp [countOcc] at h1
  | succ f ih =>
    intro s hl h1
    cases s with
    | nil => simp [countOcc] at h1
    | cons c rest =>
      have hrl : rest.length ≤ f := by
        simp only [List.length_cons] at hl
        omega
      cases hm : ciMatch t (c :: rest) with
      | true =>
        have hcr : countOcc t rest = 0 := by
          simp only [countOcc, hm, if_true] at h1
          omega
        have htl : t.length = Nat.pred t.length + 1 :=
          (Nat.succ_pred_eq_of_pos (List.length_pos.mpr ht)).symm
        have hdrop0 : countOcc t ((c :: rest).drop t.length) = 0 := by
          rw [htl, List.drop_succ_cons]
          have := countOcc_drop_le t (Nat.pred t.length) rest
          omega
        have hdlen : ((c :: rest).drop t.length).length ≤ f := by
          rw [List.length_drop]
          simp only [List.length_cons]
          omega
        refine ⟨[], c :: rest, rfl, hm, ?_, rfl, hdrop0⟩
        simp only [subCI, hm, if_true, List.nil_append]
        rw [subCI_of_countOcc_zero t f _ hdlen hdrop0]
      | false =>
        have h1' : countOcc t rest = 1 := by
          simp only [countOcc, hm, Bool.false_eq_true, if_false] at h1
          omega
        obtain ⟨pre', rest2', hsplit, hmatch, hsub, hpre0, hrest0⟩ := ih rest hrl h1'
        have hcm : ciMatch t (c :: pre') = false := by
          cases hv : ciMatch t (c :: pre') with
          | false => rfl
          | true =>
            exfalso
            have hle : t.length ≤ (c :: pre').length := ciMatch_length _ _ hv
            have hbig := ciMatch_append_long t (c :: pre') rest2' hle
            rw [hv, List.cons_append, ← hsplit] at hbig
            rw [hbig] at hm
            simp at hm
        refine ⟨c :: pre', rest2', by rw [List.cons_append, ← hsplit], hmatch, ?_, ?_, hrest0⟩
        · simp only [subCI, hm, Bool.false_eq_true, if_false]
          rw [hsub]
          rfl
        · simp only [countOcc, hcm, Bool.false_eq_true, if_false, hpre0]

theorem ciMatch_append_ph (t : List Char) (hu : '_' ∉ t) (u b : List Char) :
    ciMatch t (u ++ (placeholder ++ b)) = ciMatch t u := by
  cases t with
  | nil => rfl
  | cons c t =>
    by_cases hlen : (c :: t).length ≤ u.length
    · exact ciMatch_append_long (c :: t) u _ hlen
    · have hru : ciMatch (c :: t) u = false := by
        cases hv : ciMatch (c :: t) u with
        | false => rfl
        | true => exact absurd (ciMatch_length _ _ hv) hlen
      rw [hru]
      cases hv : ciMatch (c :: t) (u ++ (placeholder ++ b)) with
      | false => rfl
      | true =>
        exfalso
        have hul : u.length ≤ (c :: t).length := le_of_not_le hlen
        have hdrop := ciMatch_append_drop u (c :: t) (placeholder ++ b) hv hul
        have hdne : (c :: t).drop u.length ≠ [] := by
          intro h
          rw [List.drop_eq_nil_iff] at h
          omega
        have hdmem : '_' ∉ (c :: t).drop u.length :=
          fun hmem => hu (List.drop_subset _ _ hmem)
        have := ciMatch_underscore_head hdne hdmem ('_' :: '_' :: b)
        rw [show placeholder ++ b = '_' :: '_' :: '_' :: b from rfl] at hdrop
        rw [this] at hdrop
        simp at hdrop

theorem countOcc_underscore_cons (t : List Char) (ht : t ≠ []) (hu : '_' ∉ t)
    (v : List Char) : countOcc t ('_' :: v) = countOcc t v := by
  simp only [countOcc, ciMatch_underscore_head ht hu v, Bool.false_eq_true, if_false]
  omega

/-- Occurrences of a term without underscores in `a ++ placeholder ++ b` are exactly the
occurrences inside `a` plus those inside `b`: none can start at or cross the placeholder. -/
theorem countOcc_append_ph (t : List Char) (ht : t ≠ []) (hu : '_' ∉ t) :
    ∀ (a b : List Char), countOcc t (a ++ (placeholder ++ b)) = countOcc t a + countOcc t b := by
  intro a
  induction a with
  | nil =>
    intro b
    rw [List.nil_append]
    rw [show placeholder ++ b = '_' :: '_' :: '_' :: b from rfl]
    rw [countOcc_underscore_cons t ht hu, countOcc_underscore_cons t ht hu,
      countOcc_underscore_cons t ht hu]
    simp only [countOcc]
    omega
  | cons c a ih =>
    intro b
    have hc : ciMatch t ((c :: a) ++ (placeholder ++ b)) = ciMatch t (c :: a) :=
      ciMatch_append_ph t hu (c :: a) b
    rw [List.cons_append]
    simp only [countOcc]
    rw [← List.cons_append, hc, ih b]
    omega

theorem ciMatch_underscore_pattern {b : List Char} (hb : '_' ∉ b) (ts : List Char) :
    ciMatch ('_' :: ts) b = false := by
  cases b with
  | nil => rfl
  | cons d b =>
    simp only [ciMatch, Bool.and_eq_false_iff]
    left
    simp only [decide_eq_false_iff_not]
    intro h
    have hd : lowerCode d = 95 := by
      have h95 : lowerCode '_' = 95 := by decide
      omega
    exact hb (by rw [← lowerCode_underscore hd]; exact List.mem_cons_self _ _)

theorem countOcc_ph_no_underscore {a : List Char} (ha : '_' ∉ a) :
    ∀ z, countOcc placeholder (a ++ z) = countOcc placeholder z := by
  induction a with
  | nil => intro z; rfl
  | cons c a ih =>
    intro z
    have hc : c ≠ '_' := fun h => ha (h ▸ List.mem_cons_self _ _)
    have hcm : ciMatch placeholder (c :: (a ++ z)) = false := by
      simp only [placeholder, ciMatch, Bool.and_eq_false_iff]
      left
      simp only [decide_eq_false_iff_not]
      intro h
      have h95 : lowerCode '_' = 95 := by decide
      exact hc (lowerCode_underscore (by omega))
    rw [List.cons_append]
    simp only [countOcc, hcm, Bool.false_eq_true, if_false]
    rw [ih (fun hm => ha (List.mem_cons_of_mem c hm)) z]
    omega

/-- The placeholder occurs exactly once in `a ++ placeholder ++ b` when neither `a` nor
`b` contains an underscore. -/
theorem countOcc_ph_one {a b : List Char} (ha : '_' ∉ a) (hb : '_' ∉ b) :
    countOcc placeholder (a ++ (placeholder ++ b)) = 1 := by
  rw [countOcc_ph_no_underscore ha]
  rw [show placeholder ++ b = '_' :: '_' :: '_' :: b from rfl]
  have h1 : ciMatch placeholder ('_' :: '_' :: '_' :: b) = true := rfl
  have h2 : ciMatch placeholder ('_' :: '_' :: b) = false := by
    show (decide (lowerCode '_' = lowerCode '_') &&
      (decide (lowerCode '_' = lowerCode '_') && ciMatch ['_'] b)) = false
    rw [ciMatch_underscore_pattern hb]
    simp
  have h3 : ciMatch placeholder ('_' :: b) = false := by
    show (decide (lowerCode '_' = lowerCode '_') && ciMatch ['_', '_'] b) = false
    rw [ciMatch_underscore_pattern hb]
    simp
  have h4 : countOcc placeholder b = 0 := by
    have := countOcc_ph_no_underscore hb ([] : List Char)
    simpa using this
  simp only [countOcc, h1, h2, h3, Bool.false_eq_true, if_false, if_true, h4]

/-- The scanning substitution realises the spec's replace-every-occurrence relation. -/
theorem subCI_maskRel (t : List Char) (ht : t ≠ []) : ∀ (fuel : Nat) (s : List Char),
    s.length ≤ fuel → MaskRel t s (subCI t fuel s) := by
  intro fuel
  induction fuel with
  | zero =>
    intro s hl
    have hs : s = [] := List.length_eq_zero.mp (Nat.le_zero.mp hl)
    subst hs
    exact MaskRel.empty
  | succ f ih =>
    intro s hl
    cases s with
    | nil => exact MaskRel.empty
    | cons c rest =>
      have hrl : rest.length ≤ f := by
        simp only [List.length_cons] at hl
        omega
      cases hm : ciMatch t (c :: rest) with
      | true =>
        have htl : t.length = Nat.pred t.length + 1 :=
          (Nat.succ_pred_eq_of_pos (List.length_pos.mpr ht)).symm
        have hdlen : ((c :: rest).drop t.length).length ≤ f := by
          rw [List.length_drop]
          simp only [List.length_cons]
          omega
        have htake : ((c :: rest).take t.length).map lowerCode = t.map lowerCode :=
          ciMatch_take t (c :: rest) hm
        have htne : (c :: rest).take t.length ≠ [] := by
          intro h
          rcases List.take_eq_nil_iff.mp h with h0 | h0
          · exact ht (List.length_eq_zero.mp h0)
          · exact List.cons_ne_nil c rest h0
        have hrel := MaskRel.replace ((c :: rest).take t.length) ((c :: rest).drop t.length)
          (subCI t f ((c :: rest).drop t.length)) htne htake (ih _ hdlen)
        rw [List.take_append_drop] at hrel
        simpa only [subCI, hm, if_true] using hrel
      | false =>
        have hno : ¬ CIHeadMatch t (c :: rest) := by
          intro hhead
          have := (ciHeadMatch_iff t (c :: rest)).mp hhead
          rw [hm] at this
          simp at this
        have hrel := MaskRel.keep c rest (subCI t f rest) hno (ih rest hrl)
        simpa only [subCI, hm, Bool.false_eq_true, if_false] using hrel

/-- C4: masking with an empty sentence or an empty term returns the sentence unchanged
(so `mask(s, "") = s` and `mask("", t) = ""`); otherwise the result is obtained from the
sentence by replacing every non-overlapping case-insensitive occurrence of the term —
taken as literal text, pattern characters have no special meaning in the embedding of
`re.escape` — with the placeholder `"___"`. -/
theorem c4_mask_contract (s t : List Char) :
    ((s = [] ∨ t = []) → hide_term_in_sentence s t = s) ∧
    (s ≠ [] → t ≠ [] → MaskRel t s (hide_term_in_sentence s t)) := by
  constructor
  · intro h
    unfold hide_term_in_sentence
    rw [if_pos h]
  · intro hs ht
    unfold hide_term_in_sentence
    rw [if_neg (by simp [hs, ht])]
    exact subCI_maskRel t ht s.length s (le_refl _)

theorem c4_mask_contract_witness :
    hide_term_in_sentence [] ['a'] = [] ∧
    hide_term_in_sentence ['a', 'b'] [] = ['a', 'b'] ∧
    MaskRel ['a'] ['C', 'a', 't'] (hide_term_in_sentence ['C', 'a', 't'] ['a']) :=
  ⟨(c4_mask_contract [] ['a']).1 (Or.inl rfl),
    (c4_mask_contract ['a', 'b'] []).1 (Or.inr rfl),
    (c4_mask_contract ['C', 'a', 't'] ['a']).2 (by decide) (by decide)⟩

/-- C6 fails as stated on the code: for the term `"a"` and the sentence `"___a"` — which
contains exactly one case-insensitive occurrence of the term — the masked result is six
underscores, in which the placeholder `"___"` occurs at four start positions, not exactly
once. -/
theorem c6_counterexample :
    countOcc ['a'] ['_', '_', '_', 'a'] = 1 ∧
    hide_term_in_sentence ['_', '_', '_', 'a'] ['a'] = ['_', '_', '_', '_', '_', '_'] ∧
    ¬ countOcc placeholder (hide_term_in_sentence ['_', '_', '_', 'a'] ['a']) = 1 := by
  refine ⟨by decide, by decide, by decide⟩

/-- C6 (amended): for every non-empty term `t` and every sentence `s` that contains no
underscore and exactly one case-insensitive occurrence of `t`, the masked sentence
contains the placeholder `"___"` exactly once and contains no case-insensitive occurrence
of `t`. -/
theorem c6_amended_single_occurrence (s t : List Char) (ht : t ≠ []) (hs : '_' ∉ s)
    (h1 : countOcc t s = 1) :
    countOcc placeholder (hide_term_in_sentence s t) = 1 ∧
    countOcc t (hide_term_in_sentence s t) = 0 := by
  have hsne : s ≠ [] := by
    intro h
    subst h
    simp [countOcc] at h1
  have hmask : hide_term_in_sentence s t = subCI t s.length s := by
    unfold hide_term_in_sentence
    rw [if_neg (by simp [hsne, ht])]
  obtain ⟨pre, rest2, hsplit, hmatch, hsub, hpre0, hrest0⟩ :=
    subCI_decomp t ht s.length s (le_refl _) h1
  have hpre : '_' ∉ pre := fun hm => hs (hsplit ▸ List.mem_append_left rest2 hm)
  have hrest2 : '_' ∉ rest2 := fun hm => hs (hsplit ▸ List.mem_append_right pre hm)
  have hdropmem : '_' ∉ rest2.drop t.length :=
    fun hm => hrest2 (List.drop_subset _ _ hm)
  have hut : '_' ∉ t := by
    intro hm
    exact hrest2 (ciMatch_mem_underscore t rest2 hmatch hm)
  have hform : hide_term_in_sentence s t = pre ++ (placeholder ++ rest2.drop t.length) := by
    rw [hmask, hsub, List.append_assoc]
  constructor
  · rw [hform]
    exact countOcc_ph_one hpre hdropmem
  · rw [hform, countOcc_append_ph t ht hut, hpre0, hrest0]

theorem c6_amended_single_occurrence_witness :
    (['C', 'A', 'T'] : List Char) ≠ [] ∧
    '_' ∉ ['T', 'h', 'e', ' ', 'c', 'a', 't'] ∧
    countOcc ['C', 'A', 'T'] ['T', 'h', 'e', ' ', 'c', 'a', 't'] = 1 ∧
    (countOcc placeholder
        (hide_term_in_sentence ['T', 'h', 'e', ' ', 'c', 'a', 't'] ['C', 'A', 'T']) = 1 ∧
      countOcc ['C', 'A', 'T']
        (hide_term_in_sentence ['T', 'h', 'e', ' ', 'c', 'a', 't'] ['C', 'A', 'T']) = 0) :=
  ⟨by decide, by decide, by decide,
    c6_amended_single_occurrence ['T', 'h', 'e', ' ', 'c', 'a', 't'] ['C', 'A', 'T']
      (by decide) (by decide) (by decide)⟩

/-! ## Term derivation for the gap-fill tab (src/app.py lines 292-299) -/

/-- `str.strip()`, modelled on ASCII whitespace: drop leading and trailing whitespace. -/
def pyStrip (s : List Char) : List Char :=
  ((s.dropWhile Char.isWhitespace).reverse.dropWhile Char.isWhitespace).reverse

/-- `x.split(sep)[0]`: the characters before the first separator (whole string if the
separator does not occur). -/
def firstField (sep : Char) (s : List Char) : List Char :=
  s.takeWhile (fun c => c != sep)

/-- Lines 292-297: with `is_b2_mode` (line 182) deciding between the two sources, the
term to hide is `str(row['Präposition']).split('+')[0].split('/')[0].strip()` when the
stripped Präposition cell is non-empty, and `str(row['Deutsch'])` otherwise. -/
def term_to_hide (item : VocabItem) : List Char :=
  if pyStrip item.praeposition.toList ≠ [] then
    pyStrip (firstField '/' (firstField '+' item.praeposition.toList))
  else item.deutsch.toList

/-- Spec-modelled (§4.5): the first alternative of a grammar tag — the text before any
`+`-qualifier and before any `/`-alternative, trimmed of surrounding whitespace. -/
def firstAlternative (tag : List Char) : List Char :=
  pyStrip (tag.takeWhile (fun c => (c != '+') && (c != '/')))

theorem takeWhile_pred_congr {p q : Char → Bool} (h : ∀ c, p c = q c) :
    ∀ l : List Char, l.takeWhile p = l.takeWhile q := by
  intro l
  induction l with
  | nil => rfl
  | cons c l ih =>
    rw [List.takeWhile_cons, List.takeWhile_cons, h c, ih]

theorem firstField_pair (s : List Char) :
    firstField '/' (firstField '+' s) = s.takeWhile (fun c => (c != '+') && (c != '/')) := by
  unfold firstField
  rw [List.takeWhile_takeWhile]
  apply takeWhile_pred_congr
  intro c
  cases h1 : c == '+' <;> cases h2 : c == '/' <;> simp [bne, h1, h2]

/-- C7: when the grammar tag (`Präposition`) is non-empty after trimming, the hidden term
is its first alternative — the text before any `+`-qualifier and before any
`/`-alternative, trimmed; for every other item the hidden term is the item's
`Deutsch` field. -/
theorem c7_hidden_term (item : VocabItem) :
    (pyStrip item.praeposition.toList ≠ [] →
      term_to_hide item = firstAlternative item.praeposition.toList) ∧
    (pyStrip item.praeposition.toList = [] → term_to_hide item = item.deutsch.toList) := by
  constructor
  · intro h
    unfold term_to_hide firstAlternative
    rw [if_pos h, firstField_pair]
  · intro h
    unfold term_to_hide
    rw [if_neg (fun hc => hc h)]

def denkenItem : VocabItem :=
  ⟨"denken", "", "", "Ich denke an dich.", "", "Neutral", "an/auf + Dativ", "", ""⟩

theorem c7_hidden_term_witness :
    pyStrip denkenItem.praeposition.toList ≠ [] ∧
    term_to_hide denkenItem = firstAlternative denkenItem.praeposition.toList ∧
    firstAlternative denkenItem.praeposition.toList = ['a', 'n'] :=
  ⟨by decide, (c7_hidden_term denkenItem).1 (by decide), by decide⟩

/-! ## Session Navigator (`next_card`/`prev_card`, src/app.py lines 108-119) -/

structure SessionState where
  current_idx : Nat
  history : List Nat
  show_solution : Bool
deriving DecidableEq

/-- `next_card()` for one random draw `r`: push the current index at the end of the
history (`list.append`), pick a fresh index when the deck is non-empty, and hide the
solution (lines 108-114). -/
def next_card (df : List VocabItem) (r : ℚ) (s : SessionState) : SessionState :=
  { current_idx := if df = [] then s.current_idx else get_weighted_random_index df r,
    history := s.history ++ [s.current_idx],
    show_solution := false }

/-- `prev_card()`: nothing when the history is empty; otherwise pop the last pushed index
(`list.pop`) into the current index and hide the solution (lines 116-119). -/
def prev_card (s : SessionState) : SessionState :=
  match s.history.getLast? with
  | none => s
  | some i => { current_idx := i, history := s.history.dropLast, show_solution := false }

/-- k consecutive `next_card` calls, one random draw per call. -/
def run_next (df : List VocabItem) (rs : List ℚ) (s : SessionState) : SessionState :=
  rs.foldl (fun st r => next_card df r st) s

/-- The indices pushed by the successive `next_card` calls, in visit order. -/
def visit_trace (df : List VocabItem) : List ℚ → SessionState → List Nat
  | [], _ => []
  | r :: rest, s => s.current_idx :: visit_trace df rest (next_card df r s)

/-- The current indices observed after each of k successive `prev_card` calls. -/
def back_trace : Nat → SessionState → List Nat
  | 0, _ => []
  | k + 1, s => (prev_card s).current_idx :: back_trace k (prev_card s)

theorem run_next_history (df : List VocabItem) : ∀ (rs : List ℚ) (s : SessionState),
    (run_next df rs s).history = s.history ++ visit_trace df rs s := by
  intro rs
  induction rs with
  | nil =>
    intro s
    simp [run_next, visit_trace]
  | cons r rest ih =>
    intro s
    show (run_next df rest (next_card df r s)).history = _
    rw [ih (next_card df r s)]
    simp [next_card, visit_trace]

theorem visit_trace_length (df : List VocabItem) : ∀ (rs : List ℚ) (s : SessionState),
    (visit_trace df rs s).length = rs.length := by
  intro rs
  induction rs with
  | nil => intro s; rfl
  | cons r rest ih =>
    intro s
    simp only [visit_trace, List.length_cons, ih (next_card df r s)]

theorem prev_card_concat (c : Nat) (b : Bool) (H : List Nat) (t : Nat) :
    prev_card ⟨c, H ++ [t], b⟩ = ⟨t, H, false⟩ := by
  unfold prev_card
  simp [List.getLast?_concat, List.dropLast_concat]

/-- Popping as many times as a suffix `T` of the history is long yields exactly the
entries of `T`, most recent first, regardless of what sits below them. -/
theorem back_trace_pops (T : List Nat) : ∀ (H : List Nat) (c : Nat) (b : Bool),
    back_trace T.length ⟨c, H ++ T, b⟩ = T.reverse := by
  induction T using List.reverseRecOn with
  | nil =>
    intro H c b
    rfl
  | append_singleton T2 t ih =>
    intro H c b
    have hlen : (T2 ++ [t]).length = T2.length + 1 := by simp
    rw [hlen]
    show (prev_card ⟨c, H ++ (T2 ++ [t]), b⟩).current_idx ::
      back_trace T2.length (prev_card ⟨c, H ++ (T2 ++ [t]), b⟩) = (T2 ++ [t]).reverse
    rw [show H ++ (T2 ++ [t]) = (H ++ T2) ++ [t] from (List.append_assoc H T2 [t]).symm]
    rw [prev_card_concat c b (H ++ T2) t]
    rw [ih (H) t false]
    simp

/-- C2: from a fresh session (empty history), after k consecutive `next_card` calls the
k consecutive `prev_card` calls produce the previously visited indices in exact reverse
order — the history is a LIFO stack, `next_card` pushes the current index and `prev_card`
pops it back into the current index — and `prev_card` on an empty history is a no-op
that changes no session state. -/
theorem c2_navigation_stack (df : List VocabItem) (rs : List ℚ) (s0 : SessionState)
    (h : s0.history = []) :
    back_trace rs.length (run_next df rs s0) = (visit_trace df rs s0).reverse ∧
    prev_card s0 = s0 := by
  constructor
  · have hlen : rs.length = (visit_trace df rs s0).length :=
      (visit_trace_length df rs s0).symm
    rcases hs : run_next df rs s0 with ⟨ci, hist, ss⟩
    have hhist : hist = visit_trace df rs s0 := by
      have hrun := run_next_history df rs s0
      rw [hs, h] at hrun
      simpa using hrun
    rw [← hhist] at hlen ⊢
    rw [hlen]
    have := back_trace_pops hist [] ci ss
    simpa using this
  · unfold prev_card
    rw [h]
    rfl

theorem c2_navigation_stack_witness :
    (⟨7, [], true⟩ : SessionState).history = [] ∧
    (back_trace ([0, 0] : List ℚ).length (run_next [greenItem] [0, 0] ⟨7, [], true⟩) =
        (visit_trace [greenItem] [0, 0] ⟨7, [], true⟩).reverse ∧
      prev_card ⟨7, [], true⟩ = ⟨7, [], true⟩) :=
  ⟨rfl, c2_navigation_stack [greenItem] [0, 0] ⟨7, [], true⟩ rfl⟩

/-! ## Review Recorder (`update_status` + `save_data`, src/app.py lines 57-63) -/

/-- `df.at[index, 'Status'] = status`: replace the status of the row at `index`.  The
app only ever calls this with the valid current index; an out-of-range index is modelled
as a no-op. -/
def update_status (df : List VocabItem) (i : Nat) (status : String) : List VocabItem :=
  match df[i]? with
  | some r => df.set i { r with status := status }
  | none => df

/-- `save_data(df, filename)`: overwrite the stored deck at `filename` (line 57-58). -/
def save_data (store : String → List VocabItem) (df : List VocabItem) (filename : String) :
    String → List VocabItem :=
  fun f => if f = filename then df else store f

/-- `update_status(df, index, status, filename)` (lines 60-63): mutate the one cell, then
immediately persist the whole deck. -/
def update_status_and_save (df : List VocabItem) (i : Nat) (status filename : String)
    (store : String → List VocabItem) : List VocabItem × (String → List VocabItem) :=
  (update_status df i status, save_data store (update_status df i status) filename)

/-- C3: `update_status` sets the status of the row at the given (valid) index to the
given value, changes no other row and no other field of that row, and the save that
follows persists exactly the updated deck at the deck's storage location
(write-through). -/
theorem c3_record_review (df : List VocabItem) (i : Nat) (st fname : String)
    (store : String → List VocabItem) (h : i < df.length) :
    ((update_status df i st)[i]?.map VocabItem.status = some st) ∧
    (∀ j, j ≠ i → (update_status df i st)[j]? = df[j]?) ∧
    ((update_status df i st)[i]?.map VocabItem.deutsch = df[i]?.map VocabItem.deutsch ∧
      (update_status df i st)[i]?.map VocabItem.farsi = df[i]?.map VocabItem.farsi ∧
      (update_status df i st)[i]?.map VocabItem.english = df[i]?.map VocabItem.english ∧
      (update_status df i st)[i]?.map VocabItem.beispielsatz =
        df[i]?.map VocabItem.beispielsatz ∧
      (update_status df i st)[i]?.map VocabItem.beispielsatzFarsi =
        df[i]?.map VocabItem.beispielsatzFarsi ∧
      (update_status df i st)[i]?.map VocabItem.praeposition =
        df[i]?.map VocabItem.praeposition ∧
      (update_status df i st)[i]?.map VocabItem.artikel = df[i]?.map VocabItem.artikel ∧
      (update_status df i st)[i]?.map VocabItem.plural = df[i]?.map VocabItem.plural) ∧
    ((update_status_and_save df i st fname store).2 fname = update_status df i st) := by
  have hi : df[i]? = some df[i] := List.getElem?_eq_getElem h
  have hupd : update_status df i st = df.set i { df[i] with status := st } := by
    unfold update_status
    rw [hi]
  have hset : (df.set i { df[i] with status := st })[i]? =
      some { df[i] with status := st } :=
    List.getElem?_set_eq_of_lt _ (by simpa using h)
  refine ⟨?_, ?_, ?_, ?_⟩
  · rw [hupd, hset]
    rfl
  · intro j hj
    rw [hupd]
    exact List.getElem?_set_ne (fun he => hj he.symm)
  · rw [hupd, hset, hi]
    exact ⟨rfl, rfl, rfl, rfl, rfl, rfl, rfl, rfl⟩
  · simp [update_status_and_save, save_data]

theorem c3_record_review_witness :
    1 < ([greenItem, redItem] : List VocabItem).length ∧
    (((update_status [greenItem, redItem] 1 "Green")[1]?.map VocabItem.status =
        some "Green") ∧
      (∀ j, j ≠ 1 → (update_status [greenItem, redItem] 1 "Green")[j]? =
        ([greenItem, redItem] : List VocabItem)[j]?) ∧
      ((update_status [greenItem, redItem] 1 "Green")[1]?.map VocabItem.deutsch =
          ([greenItem, redItem] : List VocabItem)[1]?.map VocabItem.deutsch ∧
        (update_status [greenItem, redItem] 1 "Green")[1]?.map VocabItem.farsi =
          ([greenItem, redItem] : List VocabItem)[1]?.map VocabItem.farsi ∧
        (update_status [greenItem, redItem] 1 "Green")[1]?.map VocabItem.english =
          ([greenItem, redItem] : List VocabItem)[1]?.map VocabItem.english ∧
        (update_status [greenItem, redItem] 1 "Green")[1]?.map VocabItem.beispielsatz =
          ([greenItem, redItem] : List VocabItem)[1]?.map VocabItem.beispielsatz ∧
        (update_status [greenItem, redItem] 1 "Green")[1]?.map VocabItem.beispielsatzFarsi =
          ([greenItem, redItem] : List VocabItem)[1]?.map VocabItem.beispielsatzFarsi ∧
        (update_status [greenItem, redItem] 1 "Green")[1]?.map VocabItem.praeposition =
          ([greenItem, redItem] : List VocabItem)[1]?.map VocabItem.praeposition ∧
        (update_status [greenItem, redItem] 1 "Green")[1]?.map VocabItem.artikel =
          ([greenItem, redItem] : List VocabItem)[1]?.map VocabItem.artikel ∧
        (update_status [greenItem, redItem] 1 "Green")[1]?.map VocabItem.plural =
          ([greenItem, redItem] : List VocabItem)[1]?.map VocabItem.plural) ∧
      ((update_status_and_save [greenItem, redItem] 1 "Green" "vokabeln.csv"
          (fun _ => [])).2 "vokabeln.csv" = update_status [greenItem, redItem] 1 "Green")) :=
  ⟨by decide,
    c3_record_review [greenItem, redItem] 1 "Green" "vokabeln.csv" (fun _ => [])
      (by decide)⟩

/-! ## Deck Store load (`load_data`, src/app.py lines 41-55) -/

/-- A stored CSV table as pandas sees it after `read_csv`: the header columns present in
the file, and one cell assignment per row — a cell is `none` when it is empty (NaN);
a column absent from `cols` is absent from every row. -/
structure RawTable where
  cols : List String
  rows : List (List (String × Option String))

/-- Default back-filled for a fully missing column (line 51):
`"" if col != 'Status' else "Neutral"`. -/
def defaultFor (c : String) : String :=
  if c = "Status" then "Neutral" else ""

/-- The string value of one cell after load: a present column takes the stored cell, with
`fillna("")` turning a missing/NaN cell into the empty string (line 52); an absent
column is back-filled with its default for all rows (lines 49-51). -/
def loadCell (cols : List String) (row : List (String × Option String)) (c : String) :
    String :=
  if c ∈ cols then ((row.lookup c).join).getD "" else defaultFor c

/-- One loaded deck row with all nine schema fields populated. -/
def loadRow (cols : List String) (row : List (String × Option String)) : VocabItem :=
  { deutsch := loadCell cols row "Deutsch"
    farsi := loadCell cols row "Farsi"
    english := loadCell cols row "English"
    beispielsatz := loadCell cols row "Beispielsatz"
    beispielsatzFarsi := loadCell cols row "Beispielsatz_Farsi"
    status := loadCell cols row "Status"
    praeposition := loadCell cols row "Präposition"
    artikel := loadCell cols row "Artikel"
    plural := loadCell cols row "Plural" }

/-- `load_data` on a successfully read table (lines 46-52). -/
def load_data (tbl : RawTable) : List VocabItem :=
  tbl.rows.map (loadRow tbl.cols)

/-- C5 fails as stated on the code: loading a table whose `Status` column is present but
whose cell is empty (NaN in pandas) yields status `""` — not `"Neutral"` and not one of
the three allowed values.  `fillna("")` applies to the Status column too; only a fully
missing Status column is back-filled with `"Neutral"`, and a stored unrecognized value
would be kept verbatim. -/
theorem c5_counterexample :
    (load_data ⟨["Status"], [[("Status", none)]]⟩).map VocabItem.status = [""] ∧
    ¬ ("" = "Neutral" ∨ "" = "Red" ∨ "" = "Green") :=
  ⟨by decide, by decide⟩

/-- C5 (amended): a loaded deck has one item per stored row, in order, and the item at
position `k` is loaded from the stored row at position `k`.  That item's status is
`"Neutral"` when the stored table lacks the `Status` column entirely; when the column is
present, it is the item's own row's stored cell value verbatim — no normalisation — with
a missing/empty cell loading as the empty string. -/
theorem c5_amended_status_load (tbl : RawTable) (k : Nat) (hk : k < tbl.rows.length) :
    (load_data tbl).length = tbl.rows.length ∧
    ∃ row, tbl.rows[k]? = some row ∧
      (load_data tbl)[k]? = some (loadRow tbl.cols row) ∧
      ("Status" ∉ tbl.cols → (loadRow tbl.cols row).status = "Neutral") ∧
      ("Status" ∈ tbl.cols →
        (loadRow tbl.cols row).status = ((row.lookup "Status").join).getD "") := by
  refine ⟨List.length_map _ _, tbl.rows[k], List.getElem?_eq_getElem hk, ?_, ?_, ?_⟩
  · unfold load_data
    rw [List.getElem?_map, List.getElem?_eq_getElem hk]
    rfl
  · intro h
    simp [loadRow, loadCell, h, defaultFor]
  · intro h
    simp [loadRow, loadCell, h]

theorem c5_amended_status_load_witness :
    0 < ([[("Deutsch", some "Hund")]] : List (List (String × Option String))).length ∧
    ((load_data ⟨["Deutsch"], [[("Deutsch", some "Hund")]]⟩).length =
        ([[("Deutsch", some "Hund")]] : List (List (String × Option String))).length ∧
      ∃ row, ([[("Deutsch", some "Hund")]] : List (List (String × Option String)))[0]? =
          some row ∧
        (load_data ⟨["Deutsch"], [[("Deutsch", some "Hund")]]⟩)[0]? =
          some (loadRow ["Deutsch"] row) ∧
        ("Status" ∉ ["Deutsch"] → (loadRow ["Deutsch"] row).status = "Neutral") ∧
        ("Status" ∈ ["Deutsch"] →
          (loadRow ["Deutsch"] row).status = ((row.lookup "Status").join).getD "")) :=
  ⟨by decide,
    c5_amended_status_load ⟨["Deutsch"], [[("Deutsch", some "Hund")]]⟩ 0 (by decide)⟩

/-! ## Module Registry (`create_new_module_file` and the new-module form,
src/app.py lines 31-39 and 144-161) -/

/-- ASCII model of `str.lower` on one character. -/
def lowerChar (c : Char) : Char :=
  if 65 ≤ c.toNat ∧ c.toNat ≤ 90 then Char.ofNat (c.toNat + 32) else c

/-- Line 149: `"".join([c for c in new_mod_name if c.isalnum()]).lower() + "_custom.csv"`
(`isalnum` modelled on the ASCII letters and digits). -/
def safe_filename (name : List Char) : List Char :=
  ((name.filter Char.isAlphanum).map lowerChar) ++ ("_custom.csv".toList)

/-- The CSV schema header written for a new module (lines 33-37). -/
def schema_columns : List String :=
  ["Deutsch", "Farsi", "English", "Beispielsatz", "Beispielsatz_Farsi", "Status",
    "Präposition", "Artikel", "Plural"]

/-- `create_new_module_file(filename)` writes an empty table carrying only the header
(lines 31-39). -/
def create_new_module_file : RawTable :=
  ⟨schema_columns, []⟩

/-- The new-module form handler (lines 144-161): nothing happens without a name; a name
already registered is an error and mutates nothing; otherwise derive the location, create
the empty deck file there, and add the registry entry. -/
def new_module_submit (modules : String → Option String) (fs : String → Option RawTable)
    (name : String) : Option ((String → Option String) × (String → Option RawTable)) :=
  if name = "" then none
  else if (modules name).isSome then none
  else
    some (fun n => if n = name then some (String.mk (safe_filename name.toList))
        else modules n,
      fun f => if f = String.mk (safe_filename name.toList)
        then some create_new_module_file else fs f)

/-- C9: creating a module with a fresh non-empty name derives the storage location by
keeping only the letters and digits of the name, lower-casing them and appending
`"_custom.csv"`; it adds the name-to-location entry to the registry and writes an empty
deck file at that location containing only the schema header and no data rows. -/
theorem c9_create_module (modules : String → Option String) (fs : String → Option RawTable)
    (name : String) (hne : name ≠ "") (hfresh : modules name = none) :
    ∃ modules2 fs2, new_module_submit modules fs name = some (modules2, fs2) ∧
      modules2 name = some (String.mk (safe_filename name.toList)) ∧
      fs2 (String.mk (safe_filename name.toList)) =
        some { cols := schema_columns, rows := [] } ∧
      safe_filename name.toList =
        ((name.toList.filter Char.isAlphanum).map lowerChar) ++ ("_custom.csv".toList) := by
  refine ⟨fun n => if n = name then some (String.mk (safe_filename name.toList))
      else modules n,
    fun f => if f = String.mk (safe_filename name.toList)
      then some create_new_module_file else fs f, ?_, by simp, by simp [create_new_module_file], rfl⟩
  unfold new_module_submit
  rw [if_neg hne, hfresh]
  rfl

theorem c9_create_module_witness :
    ("Mein Modul!" : String) ≠ "" ∧
    String.mk (safe_filename "Mein Modul!".toList) = "meinmodul_custom.csv" ∧
    (∃ modules2 fs2,
      new_module_submit (fun _ => none) (fun _ => none) "Mein Modul!" =
        some (modules2, fs2) ∧
      modules2 "Mein Modul!" = some (String.mk (safe_filename "Mein Modul!".toList)) ∧
      fs2 (String.mk (safe_filename "Mein Modul!".toList)) =
        some { cols := schema_columns, rows := [] } ∧
      safe_filename "Mein Modul!".toList =
        (("Mein Modul!".toList.filter Char.isAlphanum).map lowerChar) ++
          ("_custom.csv".toList)) :=
  ⟨by decide, by decide,
    c9_create_module (fun _ => none) (fun _ => none) "Mein Modul!" (by decide) rfl⟩

end GermanTrainer
